import Mathlib

/-!
Verification development for the rust-fts5-indexer core: shallow embedding of
the query sanitizer, the two-phase searcher, the file-table upsert, the
project-root finder, the store-open validation and the indexer transaction
batching, with theorems about the specification's claims.

Strings are modelled as Lean `String` (a list of characters); machine
integers as `Int`/`Nat`; the f64 search rank as `Rat` (the ranks compared
by the code are exact decimal constants, no rounding is involved).
-/

/-! ## Character classes used by `Searcher::sanitize_query` (search.rs) -/

/-- Unicode `White_Space` code points: the set used by Rust's `str::trim`
and `str::split_whitespace` (`char::is_whitespace`). -/
def rustWsChars : List Char :=
  ['\t', '\n', '\x0b', '\x0c', '\r', ' ', '\u0085', ' ', ' ',
   ' ', ' ', ' ', ' ', ' ', ' ', ' ',
   ' ', ' ', ' ', ' ', ' ', ' ', ' ',
   ' ', '　']

/-- Rust `char::is_whitespace`. -/
def isRustWs (c : Char) : Bool := rustWsChars.contains c

/-- FTS5 special operators removed by the sanitizer (first match arm in
`sanitize_query`). -/
def removedOps : List Char := ['*', '\"', '(', ')', ':', '^', '@', '~']

/-- Punctuation replaced with a space by the sanitizer (second match arm in
`sanitize_query`); the two brace characters are written numerically. -/
def replacedPunct : List Char :=
  ['-', '_', '.', '/', '\\', '[', ']', Char.ofNat 123, Char.ofNat 125,
   '+', '!', '=', '>', '<', '&', '|']

/-- Per-character action of the sanitizer loop: both special groups become a
space, every other character (including tab/newline) passes through. -/
def sanitizeChar (c : Char) : Char :=
  if removedOps.contains c then ' '
  else if replacedPunct.contains c then ' '
  else c

/-! ## List-of-characters utilities mirroring the Rust string operations -/

/-- Rust `str::trim`: drop Unicode whitespace from both ends. -/
def trimL (l : List Char) : List Char :=
  ((l.dropWhile isRustWs).reverse.dropWhile isRustWs).reverse

/-- Accumulator loop for `split_whitespace`: words are maximal runs of
non-whitespace characters; `acc` holds the current word reversed. -/
def wordsAux : List Char → List Char → List (List Char)
  | [], acc => if acc.isEmpty then [] else [acc.reverse]
  | c :: rest, acc =>
    if isRustWs c then
      if acc.isEmpty then wordsAux rest [] else acc.reverse :: wordsAux rest []
    else wordsAux rest (c :: acc)

/-- Rust `str::split_whitespace` collected to a list. -/
def wordsL (l : List Char) : List (List Char) := wordsAux l []

/-- Rust `Vec::join(" ")`: words separated by single spaces. -/
def joinSpace : List (List Char) → List Char
  | [] => []
  | [w] => w
  | w :: v :: rest => w ++ ' ' :: joinSpace (v :: rest)

/-- Bool test: the last character of `l` is `c` (Rust `str::ends_with(char)`). -/
def lastIs (l : List Char) (c : Char) : Bool := l.getLast? == some c

/-! ## `Searcher::sanitize_query` (search.rs lines 127-170) -/

/-- Core of the sanitizer on character lists: trim, detect a trailing `-` or
`_`, map special characters to spaces, collapse whitespace, and append `*`
when the trailing-dash rule fired and the result is non-empty. -/
def sanitizeL (q : List Char) : List Char :=
  let trimmed := trimL q
  let autoStar := lastIs trimmed '-' || lastIs trimmed '_'
  let mapped := trimmed.map sanitizeChar
  let sanitized := joinSpace (wordsL mapped)
  if autoStar && !sanitized.isEmpty then sanitized ++ ['*'] else sanitized

/-- `Searcher::sanitize_query`. -/
def sanitize_query (q : String) : String := ⟨sanitizeL q.data⟩

/-! ## Hasher (db.rs `wyhash`; digest modelled from the spec) -/

/-- Modelled from the spec: the 64-bit content digest itself lives in the
third-party `wyhash` crate, which is not part of this repository's sources.
The spec only requires a deterministic 64-bit digest of the input bytes with
an explicit seed; this stands in for it as a deterministic 64-bit fold. -/
def wyhash64 (bytes : List Nat) (seed : Nat) : Nat :=
  bytes.foldl (fun h b => (h * 1099511628211 + b + 1) % 18446744073709551616)
    ((seed + 11400714819323198485) % 18446744073709551616)

/-- One lowercase hexadecimal digit, value `n < 16`. -/
def hexDigitChar (n : Nat) : Char :=
  if n < 10 then Char.ofNat (48 + n) else Char.ofNat (87 + n)

/-- Rust `format!` with the `016x` spec applied to a `u64`: exactly 16
lowercase hexadecimal digits, zero-padded, most significant first. -/
def hex16 (n : Nat) : String :=
  ⟨(List.range 16).map (fun i => hexDigitChar (n / 16 ^ (15 - i) % 16))⟩

/-- The lowercase hexadecimal alphabet. -/
def lowerHexChars : List Char := "0123456789abcdef".data

/-- `wyhash` (db.rs lines 811-817): digest with seed fixed at zero, rendered
as 16 lowercase hex characters. -/
def wyhash (bytes : List Nat) : String := hex16 (wyhash64 bytes 0)

/-- Byte view of the content passed to the hasher (`content.as_bytes()`);
character codes stand in for bytes, the digest being spec-modelled anyway. -/
def strBytes (s : String) : List Nat := s.data.map Char.toNat

/-! ## File records and `Database::upsert_file` (db.rs lines 347-373) -/

/-- One row of the `files` table. -/
structure FileRecord where
  id : Int
  path : String
  filename : String
  content_hash : String
  mtime : Int
  size : Int
  indexed_at : Int
  content : String
deriving DecidableEq, Repr

/-- Split a character list at every occurrence of `sep`, keeping empty
pieces (Rust `str::split` / SQL-free host-side segmentation). -/
def splitSepAux (sep : Char) : List Char → List Char → List (List Char)
  | [], acc => [acc.reverse]
  | c :: rest, acc =>
    if c = sep then acc.reverse :: splitSepAux sep rest []
    else splitSepAux sep rest (c :: acc)

/-- All pieces of `l` between occurrences of `sep`. -/
def splitSepL (sep : Char) (l : List Char) : List (List Char) := splitSepAux sep l []

/-- Rust `Path::file_name` on Unix for a UTF-8 path: the last component of
the path after dropping empty and `.` components, unless that component is
`..` (or there is none), in which case `None`. -/
def rustFileNameL (p : List Char) : Option (List Char) :=
  match ((splitSepL '/' p).filter (fun s => !s.isEmpty && s ≠ ['.'])).getLast? with
  | some s => if s = ['.', '.'] then none else some s
  | none => none

/-- `Path::new(path).file_name().and_then(to_str)` on strings. -/
def rustFileName (p : String) : Option String := (rustFileNameL p.data).map (⟨·⟩)

/-- The filename stored by `upsert_file`:
`Path::new(path).file_name().and_then(to_str).unwrap_or(path)`. -/
def upsertFilename (path : String) : String := (rustFileName path).getD path

/-- First stored record whose `path` equals `p` (the `path` column is
UNIQUE, so in reachable states there is at most one). -/
def lookupPath (files : List FileRecord) (p : String) : Option FileRecord :=
  files.find? (fun r => r.path == p)

/-- `Database::upsert_file`: insert a fresh row on a new path; on a path
conflict, update the row only when the newly computed hash differs from the
stored `content_hash` (the `WHERE excluded.content_hash != (SELECT
content_hash FROM files WHERE path = excluded.path)` clause), otherwise
leave the table untouched. `now` is the wall clock read (`Utc::now`),
`nextId` the rowid SQLite would assign. -/
def upsert_file (files : List FileRecord) (nextId : Int) (path content : String)
    (mtime size now : Int) : List FileRecord :=
  let hash := wyhash (strBytes content)
  let filename := upsertFilename path
  match lookupPath files path with
  | none =>
    files ++ [{ id := nextId, path := path, filename := filename,
                content_hash := hash, mtime := mtime, size := size,
                indexed_at := now, content := content }]
  | some stored =>
    if hash = stored.content_hash then files
    else
      files.map (fun r =>
        if r.path = path then
          { r with filename := filename, content_hash := hash, mtime := mtime,
                   size := size, indexed_at := now, content := content }
        else r)

/-! ## Search results and `Database::search_filename_contains` (db.rs 450-490) -/

/-- A `(path, rank)` pair; the f64 rank is modelled as a rational. -/
structure SearchResult where
  path : String
  rank : Rat
deriving DecidableEq, Repr

/-- `SearchConfig` (search.rs lines 11-19). -/
structure SearchConfig where
  paths_only : Bool
  max_results : Nat
deriving DecidableEq, Repr

/-- ASCII lower-casing, the folding used by SQLite `LOWER` and `COLLATE
NOCASE`. -/
def asciiLower (c : Char) : Char :=
  if 65 ≤ c.toNat && c.toNat ≤ 90 then Char.ofNat (c.toNat + 32) else c

/-- `escape_like_pattern` (db.rs lines 678-689). -/
def escape_like_pattern (input : List Char) : List Char :=
  input.foldr
    (fun c acc => if c = '\\' ∨ c = '%' ∨ c = '_' then '\\' :: c :: acc else c :: acc) []

/-- Denotation of `filename LIKE '%' || escaped-term || '%' ESCAPE '\'
COLLATE NOCASE`: since every LIKE metacharacter of the term is escaped, the
pattern holds exactly when the filename contains the term as a substring,
ASCII-case-insensitively. -/
def containsCI (hay needle : List Char) : Bool :=
  decide (List.IsInfix (needle.map asciiLower) (hay.map asciiLower))

/-- The `CASE` ordering key of `search_filename_contains`: 0 for an exact
(case-folded) filename match, 1 for a prefix match, 2 otherwise. -/
def caseRank (filename term : List Char) : Nat :=
  if filename.map asciiLower = term.map asciiLower then 0
  else if (term.map asciiLower).isPrefixOf (filename.map asciiLower) then 1
  else 2

/-- `ORDER BY caseRank, length(filename)` as a boolean total preorder. -/
def fnOrderLe (term : List Char) (r1 r2 : FileRecord) : Bool :=
  decide (caseRank r1.filename.data term < caseRank r2.filename.data term) ||
  (caseRank r1.filename.data term == caseRank r2.filename.data term &&
    decide (r1.filename.length ≤ r2.filename.length))

/-- Insert into a sorted list (one step of the sort modelling `ORDER BY`). -/
def insertLe {α : Type} (le : α → α → Bool) (x : α) : List α → List α
  | [] => [x]
  | y :: ys => if le x y then x :: y :: ys else y :: insertLe le x ys

/-- Sorting modelling `ORDER BY` (SQLite leaves tie order unspecified; any
permutation respecting the key is a faithful model). -/
def sortLe {α : Type} (le : α → α → Bool) (l : List α) : List α :=
  l.foldr (insertLe le) []

/-- Rust `str::trim_end_matches('*')`: drop every trailing `*`. -/
def trimEndStars (l : List Char) : List Char :=
  (l.reverse.dropWhile (· == '*')).reverse

/-- `Database::search_filename_contains`: trim, strip the auto-appended
wildcard, filter by case-insensitive substring match on `filename`, order by
(exact, then prefix, then contains) and filename length, and return at most
`limit` paths. -/
def search_filename_contains (files : List FileRecord) (query : String) (limit : Nat) :
    List String :=
  let q := trimL query.data
  if q.isEmpty then []
  else
    let searchTerm := trimEndStars q
    if searchTerm.isEmpty then []
    else
      let found := files.filter (fun r => containsCI r.filename.data searchTerm)
      let sorted := sortLe (fnOrderLe searchTerm) found
      (sorted.take limit).map (fun r => r.path)

/-! ## `Searcher::search` (search.rs lines 66-113) -/

/-- Phase A of `Searcher::search`: append each filename match with the
synthetic rank `-1000.0`, recording it in the seen set, stopping at
`max_results`. -/
def addPhaseA (maxr : Nat) :
    List String → List String → List SearchResult → List String × List SearchResult
  | [], seen, results => (seen, results)
  | p :: rest, seen, results =>
    if maxr ≤ results.length then (seen, results)
    else addPhaseA maxr rest (p :: seen) (results ++ [{ path := p, rank := -1000 }])

/-- Phase B of `Searcher::search`: append FTS5 results whose path is not in
the seen set, stopping at `max_results`. -/
def addPhaseB (maxr : Nat) :
    List SearchResult → List String → List SearchResult → List SearchResult
  | [], _, results => results
  | r :: rest, seen, results =>
    if maxr ≤ results.length then results
    else if seen.contains r.path then addPhaseB maxr rest seen results
    else addPhaseB maxr rest (r.path :: seen) (results ++ [r])

/-- `sanitized.split_whitespace().next()`. -/
def firstWord (s : String) : Option String := (wordsL s.data).head?.map (⟨·⟩)

/-- `Searcher::search`. The store's BM25 query (`Database::search`, an FTS5
MATCH run by the embedded store, external to this repository) is passed in
as `store_fts`, a function of the sanitized query and the computed limit. -/
def searcher_search (files : List FileRecord) (store_fts : String → Nat → List SearchResult)
    (cfg : SearchConfig) (query : String) : List SearchResult :=
  let sanitized := sanitize_query query
  if (trimL sanitized.data).isEmpty then []
  else
    let maxr := cfg.max_results
    let filename_query := (firstWord sanitized).getD sanitized
    let filename_matches := search_filename_contains files filename_query maxr
    let ab := addPhaseA maxr filename_matches [] []
    if ab.2.length < maxr then
      addPhaseB maxr (store_fts sanitized (maxr - ab.2.length + ab.1.length)) ab.1 ab.2
    else ab.2

/-! ## `find_project_root` and `is_valid_ffts_database` (health.rs 152-215) -/

/-- `EXPECTED_APPLICATION_ID` (constants.rs). -/
def EXPECTED_APPLICATION_ID : Nat := 0xA17E6D42

/-- Filesystem/store environment seen by the root finder. Directories are
component lists (`[]` is the filesystem root); each field answers one probe
made on `<dir>/<DB_NAME>` or `<dir>/.git`. -/
structure Fs where
  dbFileExists : List String → Bool
  dbOpensReadonly : List String → Bool
  dbApplicationId : List String → Option Nat
  gitDirExists : List String → Bool

/-- `is_valid_ffts_database`: the database file exists, opens read-only, and
reports our application id. -/
def is_valid_ffts_database (fs : Fs) (dir : List String) : Bool :=
  fs.dbFileExists dir && fs.dbOpensReadonly dir &&
    (fs.dbApplicationId dir == some EXPECTED_APPLICATION_ID)

/-- `DetectionMethod` (health.rs). -/
inductive DetectionMethod
  | existingDatabase
  | gitRepository
  | fallback
deriving DecidableEq, Repr

/-- `ProjectRoot` (health.rs). -/
structure ProjectRoot where
  path : List String
  method : DetectionMethod
deriving DecidableEq, Repr

/-- `[n-1, n-2, ..., 0]`. -/
def revRange : Nat → List Nat
  | 0 => []
  | n + 1 => n :: revRange n

/-- Rust `Path::ancestors()`: the directory itself, then each parent, ending
with the root. -/
def ancestorsOf (p : List String) : List (List String) :=
  (revRange (p.length + 1)).map (fun i => p.take i)

/-- The single-pass loop of `find_project_root`: a valid database returns
immediately; the first (deepest) `.git` ancestor is remembered. -/
def rootLoop (fs : Fs) (startDir : List String) :
    List (List String) → Option (List String) → ProjectRoot
  | [], none => { path := startDir, method := DetectionMethod.fallback }
  | [], some g => { path := g, method := DetectionMethod.gitRepository }
  | anc :: rest, gitRoot =>
    if is_valid_ffts_database fs anc then
      { path := anc, method := DetectionMethod.existingDatabase }
    else
      rootLoop fs startDir rest
        (if gitRoot.isNone && fs.gitDirExists anc then some anc else gitRoot)

/-- `find_project_root` (health.rs lines 188-215). -/
def find_project_root (fs : Fs) (startDir : List String) : ProjectRoot :=
  rootLoop fs startDir (ancestorsOf startDir) none

/-! ## `Database::open` (db.rs lines 106-141) -/

/-- `PragmaConfig` (db.rs lines 17-25). -/
structure PragmaConfig where
  journal_mode : String
  synchronous : String
  cache_size : Int
  temp_store : String
  mmap_size : Int
  page_size : Int
  busy_timeout_ms : Int
deriving DecidableEq, Repr

/-- Error outcomes of `Database::open` (`IndexerError`, restricted to the
variants this path produces). -/
inductive OpenError
  | configInvalid (field value reason : String)
  | database
deriving DecidableEq, Repr

/-- External behaviour of the embedded store during `open`: whether the
connection open fails and which pragma updates fail. SQLite accepts
out-of-range values for the tuning pragmas without reporting an error (they
are ignored or clamped), so these flags are environmental and independent
of the configured values. -/
structure OpenEnv where
  connOpenFails : Bool
  pragmaFails : String → Bool
  busyTimeoutCallFails : Bool

/-- Observable side effects of `Database::open` on the filesystem/store. -/
structure OpenState where
  dbFileExists : Bool
  pragmasApplied : List String
deriving DecidableEq, Repr

/-- The pragmas applied by `Database::open`, in source order. -/
def openPragmaNames : List String :=
  ["journal_mode", "synchronous", "cache_size", "temp_store", "mmap_size",
   "page_size", "foreign_keys", "trusted_schema", "application_id"]

/-- Apply the pragma sequence, recording each success, stopping at the first
store-reported failure. -/
def applyPragmas (env : OpenEnv) :
    List String → OpenState → Except OpenError Unit × OpenState
  | [], st => (Except.ok (), st)
  | p :: rest, st =>
    if env.pragmaFails p then (Except.error OpenError.database, st)
    else applyPragmas env rest { st with pragmasApplied := st.pragmasApplied ++ [p] }

/-- `Database::open`: reject a negative `busy_timeout_ms` with
`ConfigInvalid` before touching the filesystem; otherwise open (creating
the file), apply the pragmas, and set the busy timeout, mapping any store
failure to the `Database` error variant. -/
def database_open (env : OpenEnv) (cfg : PragmaConfig) (st : OpenState) :
    Except OpenError Unit × OpenState :=
  if cfg.busy_timeout_ms < 0 then
    (Except.error (OpenError.configInvalid "busy_timeout_ms"
      (toString cfg.busy_timeout_ms) "must be >= 0"), st)
  else if env.connOpenFails then (Except.error OpenError.database, st)
  else
    match applyPragmas env openPragmaNames { st with dbFileExists := true } with
    | (Except.error e, st2) => (Except.error e, st2)
    | (Except.ok _, st2) =>
      if env.busyTimeoutCallFails then (Except.error OpenError.database, st2)
      else (Except.ok (), st2)

/-! ## `Indexer::index_directory` transaction batching (indexer.rs 105-186) -/

/-- The explicit transaction statements issued by the indexer loop. -/
inductive TxOp
  | beginImmediate
  | commit
deriving DecidableEq, Repr

/-- Loop state: `batchCount` and `transaction_started`, plus the trace of
issued statements tagged with the 1-based index of the entry that issued
them. -/
structure TxState where
  batchCount : Nat
  started : Bool
  trace : List (Nat × TxOp)
deriving DecidableEq, Repr

/-- One loop iteration for an entry whose processing returned
`needs_commit = true`: increment the count, `BEGIN IMMEDIATE` on reaching
the threshold 50 with no transaction active, then `COMMIT` and re-`BEGIN`
when the count has reached `batch_size`, resetting the count to 50. -/
def txStep (batchSize : Nat) (entry : Nat) (s : TxState) : TxState :=
  let bc := s.batchCount + 1
  let s1 :=
    if bc == 50 && !s.started then
      { batchCount := bc, started := true,
        trace := s.trace ++ [(entry, TxOp.beginImmediate)] }
    else { s with batchCount := bc }
  if s1.started && decide (batchSize ≤ bc) then
    { s1 with batchCount := 50,
              trace := s1.trace ++ [(entry, TxOp.commit), (entry, TxOp.beginImmediate)] }
  else s1

/-- State after `n` commit-requiring entries of a single
`index_directory` run. -/
def txRun (batchSize : Nat) : Nat → TxState
  | 0 => { batchCount := 0, started := false, trace := [] }
  | n + 1 => txStep batchSize (n + 1) (txRun batchSize n)

/-- After the walk, `COMMIT` is issued exactly when a transaction was
started (indexer.rs lines 181-186). -/
def txFinalCommit (batchSize n : Nat) : Bool := (txRun batchSize n).started

/-! ## Theorems: hasher (claim C5) -/

/-- Every value below 16 renders as a lowercase hexadecimal digit. -/
theorem hexDigitChar_mem_lowerHex : ∀ m, m < 16 → hexDigitChar m ∈ lowerHexChars := by
  decide

/-- Claim C5: the hasher is a deterministic function of the input bytes with
the seed fixed at zero, and its output is exactly 16 characters, all
lowercase hexadecimal digits. -/
theorem wyhash_deterministic_hex (bytes bytes2 : List Nat) (heq : bytes = bytes2) :
    wyhash bytes = hex16 (wyhash64 bytes 0) ∧
    wyhash bytes = wyhash bytes2 ∧
    (wyhash bytes).length = 16 ∧
    ∀ c ∈ (wyhash bytes).data, c ∈ lowerHexChars := by
  subst heq
  refine ⟨rfl, rfl, rfl, ?_⟩
  intro c hc
  have hc' : c ∈ (List.range 16).map
      (fun i => hexDigitChar (wyhash64 bytes 0 / 16 ^ (15 - i) % 16)) := hc
  rw [List.mem_map] at hc'
  obtain ⟨i, _, rfl⟩ := hc'
  exact hexDigitChar_mem_lowerHex _ (Nat.mod_lt _ (by norm_num))

/-- Witness for C5 at the byte sequence `[104, 105]`. -/
theorem wyhash_deterministic_hex_witness :
    wyhash [104, 105] = hex16 (wyhash64 [104, 105] 0) ∧
    (wyhash [104, 105]).length = 16 :=
  ⟨(wyhash_deterministic_hex [104, 105] [104, 105] rfl).1,
   (wyhash_deterministic_hex [104, 105] [104, 105] rfl).2.2.1⟩

/-! ## Theorems: upsert frame effect (claim C1) -/

/-- Claim C1: an upsert whose newly computed content hash equals the stored
one leaves the whole table — hence the stored record with its `path`,
`filename`, `content_hash`, `mtime`, `size`, `indexed_at` and `content` —
unchanged; in particular `indexed_at` is not refreshed. -/
theorem upsert_file_same_hash_unchanged (files : List FileRecord) (nextId : Int)
    (path content : String) (mtime size now : Int) (r : FileRecord)
    (hfind : lookupPath files path = some r)
    (hhash : r.content_hash = wyhash (strBytes content)) :
    upsert_file files nextId path content mtime size now = files ∧
    lookupPath (upsert_file files nextId path content mtime size now) path = some r := by
  have h1 : upsert_file files nextId path content mtime size now = files := by
    unfold upsert_file
    rw [hfind]
    simp [hhash]
  exact ⟨h1, by rw [h1, hfind]⟩

/-- Witness for C1: re-upserting identical content leaves the record with
`indexed_at = 5` untouched. -/
theorem upsert_file_same_hash_unchanged_witness :
    upsert_file [{ id := 1, path := "a.rs", filename := "a.rs",
                   content_hash := wyhash (strBytes "x"), mtime := 3, size := 1,
                   indexed_at := 5, content := "x" }] 2 "a.rs" "x" 9 9 9 =
      [{ id := 1, path := "a.rs", filename := "a.rs",
         content_hash := wyhash (strBytes "x"), mtime := 3, size := 1,
         indexed_at := 5, content := "x" }] :=
  (upsert_file_same_hash_unchanged [⟨1, "a.rs", "a.rs", wyhash (strBytes "x"), 3, 1, 5, "x"⟩]
    2 "a.rs" "x" 9 9 9 ⟨1, "a.rs", "a.rs", wyhash (strBytes "x"), 3, 1, 5, "x"⟩ rfl rfl).1

/-! ## Theorems: stored filename (claim C9) -/

/-- No piece produced by `splitSepAux` contains the separator. -/
theorem splitSepAux_no_sep (sep : Char) (l : List Char) :
    ∀ acc, sep ∉ acc → ∀ w ∈ splitSepAux sep l acc, sep ∉ w := by
  induction l with
  | nil =>
    intro acc hacc w hw
    simp only [splitSepAux, List.mem_singleton] at hw
    subst hw
    simpa using hacc
  | cons c rest ih =>
    intro acc hacc w hw
    simp only [splitSepAux] at hw
    by_cases hc : c = sep
    · rw [if_pos hc] at hw
      rcases List.mem_cons.mp hw with hw1 | hw2
      · subst hw1; simpa using hacc
      · exact ih [] (by simp) w hw2
    · rw [if_neg hc] at hw
      refine ih (c :: acc) ?_ w hw
      intro hmem
      rcases List.mem_cons.mp hmem with h1 | h2
      · exact hc h1.symm
      · exact hacc h2

/-- The last element of a list is a member of it. -/
theorem mem_of_getLast?_eq {α : Type} {l : List α} {a : α} (h : l.getLast? = some a) :
    a ∈ l := by
  obtain ⟨hne, heq⟩ := List.mem_getLast?_eq_getLast (by simpa [Option.mem_def] using h)
  exact heq ▸ List.getLast_mem hne

/-- A filename extracted by `rustFileNameL` contains no separator. -/
theorem rustFileNameL_no_sep (p fn : List Char) (h : rustFileNameL p = some fn) :
    '/' ∉ fn := by
  have hmem : fn ∈ splitSepL '/' p := by
    unfold rustFileNameL at h
    cases hlast : ((splitSepL '/' p).filter (fun s => !s.isEmpty && s ≠ ['.'])).getLast? with
    | none => rw [hlast] at h; simp at h
    | some s =>
      rw [hlast] at h
      by_cases hdd : s = ['.', '.']
      · simp [hdd] at h
      · simp only [hdd, if_false, Option.some.injEq] at h
        subst h
        exact List.mem_of_mem_filter (mem_of_getLast?_eq hlast)
  exact splitSepAux_no_sep '/' p [] (by simp) fn hmem

/-- Claim C9 counterexample: upserting the path `a/..` stores the whole path
as the filename, which contains a separator and is not the last segment. -/
theorem upsert_filename_counterexample :
    (upsert_file [] 1 "a/.." "x" 0 1 7).map (fun r => r.filename) = ["a/.."] ∧
    '/' ∈ "a/..".data := by
  exact ⟨rfl, by decide⟩

/-- Claim C9 (amended): whenever the path's final component is a normal name
(Rust `Path::file_name` returns it), every record created or rewritten by
the upsert stores exactly that component as `filename`, and it contains no
separator characters; paths whose `file_name` is `None` (ending in `..`, a
bare root, or empty) fall back to storing the full path string. -/
theorem upsert_filename_last_segment (files : List FileRecord) (nextId : Int)
    (path content : String) (mtime size now : Int) (fn : String)
    (hfn : rustFileName path = some fn) :
    upsertFilename path = fn ∧ '/' ∉ fn.data ∧
    ∀ r ∈ upsert_file files nextId path content mtime size now,
      r.path = path → r ∈ files ∨ r.filename = fn := by
  have hname : upsertFilename path = fn := by simp [upsertFilename, hfn]
  have hnosep : '/' ∉ fn.data := by
    unfold rustFileName at hfn
    cases hL : rustFileNameL path.data with
    | none => rw [hL] at hfn; exact absurd hfn (by simp)
    | some l =>
      rw [hL] at hfn
      have : (⟨l⟩ : String) = fn := by simpa using hfn
      subst this
      exact rustFileNameL_no_sep path.data l hL
  refine ⟨hname, hnosep, ?_⟩
  intro r hr hrp
  unfold upsert_file at hr
  cases hlook : lookupPath files path with
  | none =>
    rw [hlook] at hr
    dsimp only at hr
    rcases List.mem_append.mp hr with h1 | h2
    · exact Or.inl h1
    · right
      have hre : r = { id := nextId, path := path, filename := upsertFilename path,
                       content_hash := wyhash (strBytes content), mtime := mtime,
                       size := size, indexed_at := now, content := content } := by
        simpa using h2
      rw [hre, hname]
  | some stored =>
    rw [hlook] at hr
    dsimp only at hr
    by_cases hh : wyhash (strBytes content) = stored.content_hash
    · rw [if_pos hh] at hr
      exact Or.inl hr
    · rw [if_neg hh] at hr
      rcases List.mem_map.mp hr with ⟨r0, hr0, hmap⟩
      by_cases hp0 : r0.path = path
      · right
        rw [if_pos hp0] at hmap
        rw [← hmap, hname]
      · left
        rw [if_neg hp0] at hmap
        rwa [← hmap]

/-- Witness for C9 (amended) at the path `docs/a.md`. -/
theorem upsert_filename_last_segment_witness :
    upsertFilename "docs/a.md" = "a.md" ∧ '/' ∉ "a.md".data :=
  ⟨(upsert_filename_last_segment [] 1 "docs/a.md" "x" 0 1 7 "a.md" rfl).1,
   (upsert_filename_last_segment [] 1 "docs/a.md" "x" 0 1 7 "a.md" rfl).2.1⟩

/-! ## Theorems: `Database::open` configuration validation (claims C7, C10) -/

/-- The pragma loop either succeeds or reports a `Database` error; it never
produces `ConfigInvalid`. -/
theorem applyPragmas_ok_or_database (env : OpenEnv) (l : List String) :
    ∀ st, (applyPragmas env l st).1 = Except.ok () ∨
      (applyPragmas env l st).1 = Except.error OpenError.database := by
  induction l with
  | nil => intro st; left; rfl
  | cons p rest ih =>
    intro st
    unfold applyPragmas
    by_cases hp : env.pragmaFails p
    · right; simp [hp]
    · simpa [hp] using ih _

/-- Claim C7 counterexample: a `page_size` of 1000 (not a power of two, so
out of range per the claim) is accepted by `open` without `ConfigInvalid`
when the store itself raises no error. -/
theorem database_open_page_size_not_validated :
    (database_open { connOpenFails := false, pragmaFails := fun _ => false,
                     busyTimeoutCallFails := false }
      { journal_mode := "WAL", synchronous := "NORMAL", cache_size := -32000,
        temp_store := "MEMORY", mmap_size := 268435456, page_size := 1000,
        busy_timeout_ms := 5000 }
      { dbFileExists := false, pragmasApplied := [] }).1 = Except.ok () := by
  rfl

/-- Claim C7 (amended): `open` reports `ConfigInvalid` exactly for a
negative `busy_timeout_ms` (and for no other tuning knob — `cache_size`,
`page_size` and `mmap_size` are applied as pragmas without range checks);
every other failure surfaces as the `Database` error variant. -/
theorem database_open_config_invalid_iff (env : OpenEnv) (cfg : PragmaConfig)
    (st : OpenState) :
    ((∃ f v r, (database_open env cfg st).1 = Except.error (OpenError.configInvalid f v r)) ↔
      cfg.busy_timeout_ms < 0) ∧
    ((database_open env cfg st).1 = Except.ok () ∨
      (database_open env cfg st).1 = Except.error OpenError.database ∨
      cfg.busy_timeout_ms < 0) := by
  by_cases hb : cfg.busy_timeout_ms < 0
  · refine ⟨⟨fun _ => hb, fun _ => ?_⟩, Or.inr (Or.inr hb)⟩
    exact ⟨"busy_timeout_ms", toString cfg.busy_timeout_ms, "must be >= 0", by
      simp [database_open, hb]⟩
  · have hshape : (database_open env cfg st).1 = Except.ok () ∨
        (database_open env cfg st).1 = Except.error OpenError.database := by
      unfold database_open
      rw [if_neg hb]
      by_cases hc : env.connOpenFails
      · right; simp [hc]
      · rw [if_neg (by simpa using hc)]
        rcases hap : applyPragmas env openPragmaNames
            { st with dbFileExists := true } with ⟨res, st2⟩
        rcases applyPragmas_ok_or_database env openPragmaNames
            { st with dbFileExists := true } with hok | herr
        · rw [hap] at hok
          simp only at hok
          subst hok
          by_cases hbt : env.busyTimeoutCallFails
          · right; simp [hap, hbt]
          · left; simp [hap, hbt]
        · rw [hap] at herr
          simp only at herr
          subst herr
          right; simp [hap]
    constructor
    · constructor
      · intro hex
        obtain ⟨f, v, r, hfv⟩ := hex
        rcases hshape with h | h <;> rw [h] at hfv <;> exact absurd hfv (by simp)
      · intro hlt
        exact absurd hlt hb
    · rcases hshape with h | h
      · exact Or.inl h
      · exact Or.inr (Or.inl h)

/-- Claim C10: a negative `busy_timeout_ms` is rejected with `ConfigInvalid`
before the store is opened — the database file is not created and no pragma
is applied, the filesystem state being returned unchanged. -/
theorem database_open_negative_timeout_pure (env : OpenEnv) (cfg : PragmaConfig)
    (st : OpenState) (h : cfg.busy_timeout_ms < 0) :
    database_open env cfg st =
      (Except.error (OpenError.configInvalid "busy_timeout_ms"
        (toString cfg.busy_timeout_ms) "must be >= 0"), st) := by
  simp [database_open, h]

/-- Witness for C10 at `busy_timeout_ms = -1` on a fresh filesystem. -/
theorem database_open_negative_timeout_pure_witness :
    database_open { connOpenFails := false, pragmaFails := fun _ => false,
                    busyTimeoutCallFails := false }
      { journal_mode := "WAL", synchronous := "NORMAL", cache_size := -32000,
        temp_store := "MEMORY", mmap_size := 0, page_size := 4096,
        busy_timeout_ms := -1 }
      { dbFileExists := false, pragmasApplied := [] } =
      (Except.error (OpenError.configInvalid "busy_timeout_ms" "-1" "must be >= 0"),
       { dbFileExists := false, pragmasApplied := [] }) :=
  database_open_negative_timeout_pure _ _ _ (by norm_num)

/-! ## Theorems: query sanitizer (claim C2) -/

/-- Claim C2 counterexample: the sanitizer is not idempotent — `01-` becomes
`01*` by the auto-wildcard rule, and a second pass strips the `*` to `01`. -/
theorem sanitize_query_not_idempotent :
    sanitize_query (sanitize_query "01-") ≠ sanitize_query "01-" := by
  decide

/-- Every word split off by `wordsAux` is non-empty. -/
theorem wordsAux_ne_nil (l : List Char) :
    ∀ acc w, w ∈ wordsAux l acc → w ≠ [] := by
  induction l with
  | nil =>
    intro acc w hw
    unfold wordsAux at hw
    by_cases hacc : acc.isEmpty
    · simp [hacc] at hw
    · rw [if_neg hacc] at hw
      have hw' := List.mem_singleton.mp hw
      subst hw'
      simpa [List.isEmpty_iff] using hacc
  | cons c rest ih =>
    intro acc w hw
    unfold wordsAux at hw
    by_cases hws : isRustWs c
    · rw [if_pos hws] at hw
      by_cases hacc : acc.isEmpty
      · rw [if_pos hacc] at hw
        exact ih [] w hw
      · rw [if_neg hacc] at hw
        rcases List.mem_cons.mp hw with h1 | h2
        · subst h1; simpa [List.isEmpty_iff] using hacc
        · exact ih [] w h2
    · rw [if_neg hws] at hw
      exact ih (c :: acc) w hw

/-- Words split off by `wordsAux` contain no whitespace, given a
whitespace-free accumulator. -/
theorem wordsAux_no_ws (l : List Char) :
    ∀ acc, (∀ c ∈ acc, isRustWs c = false) →
      ∀ w ∈ wordsAux l acc, ∀ c ∈ w, isRustWs c = false := by
  induction l with
  | nil =>
    intro acc hacc w hw c hc
    unfold wordsAux at hw
    by_cases h : acc.isEmpty
    · simp [h] at hw
    · rw [if_neg h] at hw
      have hw' := List.mem_singleton.mp hw
      subst hw'
      exact hacc c (List.mem_reverse.mp hc)
  | cons a rest ih =>
    intro acc hacc w hw c hc
    unfold wordsAux at hw
    by_cases hws : isRustWs a
    · rw [if_pos hws] at hw
      by_cases h : acc.isEmpty
      · rw [if_pos h] at hw
        exact ih [] (by simp) w hw c hc
      · rw [if_neg h] at hw
        rcases List.mem_cons.mp hw with h1 | h2
        · subst h1; exact hacc c (List.mem_reverse.mp hc)
        · exact ih [] (by simp) w h2 c hc
    · rw [if_neg hws] at hw
      refine ih (a :: acc) ?_ w hw c hc
      intro d hd
      rcases List.mem_cons.mp hd with h1 | h2
      · subst h1; simpa using hws
      · exact hacc d h2

/-- Characters of words split off by `wordsAux` come from the accumulator or
the input. -/
theorem wordsAux_subset (l : List Char) :
    ∀ acc w c, w ∈ wordsAux l acc → c ∈ w → c ∈ acc ∨ c ∈ l := by
  induction l with
  | nil =>
    intro acc w c hw hc
    unfold wordsAux at hw
    by_cases h : acc.isEmpty
    · simp [h] at hw
    · rw [if_neg h] at hw
      have hw' := List.mem_singleton.mp hw
      subst hw'
      exact Or.inl (List.mem_reverse.mp hc)
  | cons a rest ih =>
    intro acc w c hw hc
    unfold wordsAux at hw
    by_cases hws : isRustWs a
    · rw [if_pos hws] at hw
      by_cases h : acc.isEmpty
      · rw [if_pos h] at hw
        rcases ih [] w c hw hc with h1 | h2
        · simp at h1
        · exact Or.inr (List.mem_cons_of_mem a h2)
      · rw [if_neg h] at hw
        rcases List.mem_cons.mp hw with h1 | h2
        · subst h1; exact Or.inl (List.mem_reverse.mp hc)
        · rcases ih [] w c h2 hc with h1 | h3
          · simp at h1
          · exact Or.inr (List.mem_cons_of_mem a h3)
    · rw [if_neg hws] at hw
      rcases ih (a :: acc) w c hw hc with h1 | h2
      · rcases List.mem_cons.mp h1 with h3 | h4
        · subst h3; exact Or.inr (List.mem_cons_self _ _)
        · exact Or.inl h4
      · exact Or.inr (List.mem_cons_of_mem a h2)

/-- `joinSpace (w :: ws)` starts with `w`. -/
theorem joinSpace_cons_eq_append (w : List Char) (ws : List (List Char)) :
    ∃ t, joinSpace (w :: ws) = w ++ t := by
  cases ws with
  | nil => exact ⟨[], by simp [joinSpace]⟩
  | cons v rest => exact ⟨' ' :: joinSpace (v :: rest), rfl⟩

/-- Membership in a joined word list: a space or a character of some word. -/
theorem mem_joinSpace (ws : List (List Char)) :
    ∀ c, c ∈ joinSpace ws → c = ' ' ∨ ∃ w ∈ ws, c ∈ w := by
  induction ws with
  | nil => intro c hc; simp [joinSpace] at hc
  | cons w rest ih =>
    intro c hc
    cases rest with
    | nil =>
      simp only [joinSpace] at hc
      exact Or.inr ⟨w, List.mem_cons_self w [], hc⟩
    | cons v rest' =>
      simp only [joinSpace] at hc
      rcases List.mem_append.mp hc with h1 | h2
      · exact Or.inr ⟨w, List.mem_cons_self _ _, h1⟩
      · rcases List.mem_cons.mp h2 with h3 | h4
        · exact Or.inl h3
        · rcases ih c h4 with h5 | ⟨u, hu, hcu⟩
          · exact Or.inl h5
          · exact Or.inr ⟨u, List.mem_cons_of_mem w hu, hcu⟩

/-- Appending one more word to a non-empty word list. -/
theorem joinSpace_append_singleton (xs : List (List Char)) (y : List Char)
    (hne : xs ≠ []) : joinSpace (xs ++ [y]) = joinSpace xs ++ ' ' :: y := by
  induction xs with
  | nil => exact absurd rfl hne
  | cons x rest ih =>
    cases rest with
    | nil => simp [joinSpace]
    | cons x' rest' =>
      have ihh : joinSpace ((x' :: rest') ++ [y]) = joinSpace (x' :: rest') ++ ' ' :: y :=
        ih (by simp)
      simp only [List.cons_append] at ihh ⊢
      simp only [joinSpace]
      rw [ihh]
      simp

/-- Reversing a joined word list joins the reversed words in reverse
order. -/
theorem joinSpace_reverse (ws : List (List Char)) :
    (joinSpace ws).reverse = joinSpace ((ws.map List.reverse).reverse) := by
  induction ws with
  | nil => rfl
  | cons w rest ih =>
    cases rest with
    | nil => simp [joinSpace]
    | cons v rest' =>
      have hM : ((v :: rest').map List.reverse).reverse ≠ [] := by simp
      calc (joinSpace (w :: v :: rest')).reverse
          = ((joinSpace (v :: rest')).reverse ++ [' ']) ++ w.reverse := by
            simp [joinSpace, List.reverse_append]
        _ = (joinSpace (((v :: rest').map List.reverse).reverse) ++ [' ']) ++ w.reverse := by
            rw [ih]
        _ = joinSpace (((v :: rest').map List.reverse).reverse ++ [w.reverse]) := by
            rw [joinSpace_append_singleton _ _ hM]
            simp
        _ = joinSpace (((w :: v :: rest').map List.reverse).reverse) := by
            simp

/-- Unfolding equation of `wordsAux` on a cons cell. -/
theorem wordsAux_cons (c : Char) (rest acc : List Char) :
    wordsAux (c :: rest) acc =
      if isRustWs c then
        (if acc.isEmpty then wordsAux rest [] else acc.reverse :: wordsAux rest [])
      else wordsAux rest (c :: acc) := rfl

/-- Feeding a whitespace-free word into `wordsAux` accumulates it. -/
theorem wordsAux_append_word (w : List Char) :
    ∀ acc l, (∀ c ∈ w, isRustWs c = false) →
      wordsAux (w ++ l) acc = wordsAux l (w.reverse ++ acc) := by
  induction w with
  | nil => intro acc l _; simp
  | cons c w' ih =>
    intro acc l hw
    have hc : isRustWs c = false := hw c (List.mem_cons_self _ _)
    have hrest : ∀ d ∈ w', isRustWs d = false := fun d hd => hw d (List.mem_cons_of_mem c hd)
    rw [List.cons_append, wordsAux_cons c (w' ++ l) acc, if_neg (by simp [hc]),
      ih (c :: acc) l hrest]
    congr 1
    simp

/-- Splitting a join of non-empty whitespace-free words recovers the
words. -/
theorem wordsL_joinSpace (ws : List (List Char))
    (h1 : ∀ w ∈ ws, w ≠ [])
    (h2 : ∀ w ∈ ws, ∀ c ∈ w, isRustWs c = false) :
    wordsL (joinSpace ws) = ws := by
  induction ws with
  | nil => rfl
  | cons w rest ih =>
    have hwne : w ≠ [] := h1 w (List.mem_cons_self _ _)
    have hwws : ∀ c ∈ w, isRustWs c = false := h2 w (List.mem_cons_self _ _)
    cases rest with
    | nil =>
      show wordsL (joinSpace [w]) = [w]
      have : joinSpace [w] = w ++ [] := by simp [joinSpace]
      rw [this]
      unfold wordsL
      rw [wordsAux_append_word w [] [] hwws]
      unfold wordsAux
      rw [if_neg (by simpa [List.isEmpty_iff] using hwne)]
      simp
    | cons v rest' =>
      have hrest1 : ∀ u ∈ v :: rest', u ≠ [] := fun u hu => h1 u (List.mem_cons_of_mem w hu)
      have hrest2 : ∀ u ∈ v :: rest', ∀ c ∈ u, isRustWs c = false :=
        fun u hu => h2 u (List.mem_cons_of_mem w hu)
      show wordsL (joinSpace (w :: v :: rest')) = w :: v :: rest'
      have hj : joinSpace (w :: v :: rest') = w ++ ' ' :: joinSpace (v :: rest') := rfl
      rw [hj]
      unfold wordsL
      rw [wordsAux_append_word w _ _ hwws]
      unfold wordsAux
      rw [if_pos (by decide)]
      rw [if_neg (by simpa [List.isEmpty_iff] using hwne)]
      rw [List.append_nil, List.reverse_reverse]
      have := ih hrest1 hrest2
      unfold wordsL at this
      rw [this]

/-- A map that fixes every element of a list fixes the list. -/
theorem map_id_of_mem {α : Type} (f : α → α) :
    ∀ l : List α, (∀ c ∈ l, f c = c) → l.map f = l := by
  intro l
  induction l with
  | nil => intro _; rfl
  | cons a rest ih =>
    intro h
    rw [List.map_cons, h a (List.mem_cons_self _ _), ih (fun c hc => h c (List.mem_cons_of_mem a hc))]

/-- `sanitizeChar` maps every character to a space or to itself. -/
theorem sanitizeChar_cases (c : Char) :
    sanitizeChar c = ' ' ∨ sanitizeChar c = c := by
  unfold sanitizeChar
  split
  · exact Or.inl rfl
  split
  · exact Or.inl rfl
  · exact Or.inr rfl

/-- `sanitizeChar` is idempotent (a space is a fixed point). -/
theorem sanitizeChar_idempotent (c : Char) :
    sanitizeChar (sanitizeChar c) = sanitizeChar c := by
  rcases sanitizeChar_cases c with h | h
  · rw [h]; rfl
  · rw [h]; exact h

/-- Dropping leading whitespace fixes a join of non-empty whitespace-free
words. -/
theorem dropWhile_joinSpace (ws : List (List Char))
    (h1 : ∀ w ∈ ws, w ≠ [])
    (h2 : ∀ w ∈ ws, ∀ c ∈ w, isRustWs c = false) :
    (joinSpace ws).dropWhile isRustWs = joinSpace ws := by
  cases ws with
  | nil => rfl
  | cons w rest =>
    obtain ⟨t, ht⟩ := joinSpace_cons_eq_append w rest
    have hwne : w ≠ [] := h1 w (List.mem_cons_self _ _)
    obtain ⟨c, w0, hw⟩ : ∃ c w0, w = c :: w0 := by
      cases w with
      | nil => exact absurd rfl hwne
      | cons c w0 => exact ⟨c, w0, rfl⟩
    have hc : isRustWs c = false := by
      refine h2 w (List.mem_cons_self _ _) c ?_
      rw [hw]; exact List.mem_cons_self _ _
    rw [ht, hw, List.cons_append, List.dropWhile_cons]
    simp [hc]

/-- Trimming fixes a join of non-empty whitespace-free words. -/
theorem trimL_joinSpace (ws : List (List Char))
    (h1 : ∀ w ∈ ws, w ≠ [])
    (h2 : ∀ w ∈ ws, ∀ c ∈ w, isRustWs c = false) :
    trimL (joinSpace ws) = joinSpace ws := by
  have hrev1 : ∀ w ∈ (ws.map List.reverse).reverse, w ≠ [] := by
    intro w hw
    rw [List.mem_reverse, List.mem_map] at hw
    obtain ⟨u, hu, rfl⟩ := hw
    simpa using h1 u hu
  have hrev2 : ∀ w ∈ (ws.map List.reverse).reverse, ∀ c ∈ w, isRustWs c = false := by
    intro w hw c hc
    rw [List.mem_reverse, List.mem_map] at hw
    obtain ⟨u, hu, rfl⟩ := hw
    exact h2 u hu c (List.mem_reverse.mp hc)
  unfold trimL
  rw [dropWhile_joinSpace ws h1 h2, joinSpace_reverse ws,
    dropWhile_joinSpace _ hrev1 hrev2, ← joinSpace_reverse ws, List.reverse_reverse]

/-- Every character of a join of `sanitizeChar`-fixed words is itself fixed
(the separating space is a fixed point). -/
theorem joinSpace_chars_fixed (ws : List (List Char))
    (h3 : ∀ w ∈ ws, ∀ d ∈ w, sanitizeChar d = d) :
    ∀ c ∈ joinSpace ws, sanitizeChar c = c := by
  intro c hc
  rcases mem_joinSpace ws c hc with h | ⟨w, hw, hcw⟩
  · subst h; rfl
  · exact h3 w hw c hcw

/-- A join of `sanitizeChar`-fixed words never ends in a character moved by
the sanitizer (such as `-` or `_`). -/
theorem lastIs_joinSpace_false (ws : List (List Char))
    (h3 : ∀ w ∈ ws, ∀ d ∈ w, sanitizeChar d = d)
    (c : Char) (hc : sanitizeChar c ≠ c) :
    lastIs (joinSpace ws) c = false := by
  unfold lastIs
  cases hlast : (joinSpace ws).getLast? with
  | none => rfl
  | some d =>
    have hd : sanitizeChar d = d :=
      joinSpace_chars_fixed ws h3 d (mem_of_getLast?_eq hlast)
    by_cases hdc : d = c
    · subst hdc; exact absurd hd hc
    · simp [hdc]

/-- The sanitizer fixes a join of non-empty, whitespace-free,
`sanitizeChar`-fixed words. -/
theorem sanitizeL_joinSpace_fixed (ws : List (List Char))
    (h1 : ∀ w ∈ ws, w ≠ [])
    (h2 : ∀ w ∈ ws, ∀ c ∈ w, isRustWs c = false)
    (h3 : ∀ w ∈ ws, ∀ c ∈ w, sanitizeChar c = c) :
    sanitizeL (joinSpace ws) = joinSpace ws := by
  unfold sanitizeL
  dsimp only
  rw [trimL_joinSpace ws h1 h2]
  rw [lastIs_joinSpace_false ws h3 '-' (by decide),
    lastIs_joinSpace_false ws h3 '_' (by decide)]
  rw [map_id_of_mem sanitizeChar (joinSpace ws) (joinSpace_chars_fixed ws h3)]
  rw [wordsL_joinSpace ws h1 h2]
  simp

/-- Claim C2 (amended): the sanitizer is idempotent on every query whose
trimmed form does not end in `-` or `_`; for auto-wildcard queries a second
pass strips the appended `*` (see the counterexample). -/
theorem sanitize_query_idempotent_no_auto_star (q : String)
    (hdash : lastIs (trimL q.data) '-' = false)
    (hus : lastIs (trimL q.data) '_' = false) :
    sanitize_query (sanitize_query q) = sanitize_query q := by
  have hbase : sanitizeL q.data = joinSpace (wordsL ((trimL q.data).map sanitizeChar)) := by
    unfold sanitizeL
    dsimp only
    rw [hdash, hus]
    simp
  set ws := wordsL ((trimL q.data).map sanitizeChar) with hws
  have h1 : ∀ w ∈ ws, w ≠ [] := fun w hw => wordsAux_ne_nil _ [] w hw
  have h2 : ∀ w ∈ ws, ∀ c ∈ w, isRustWs c = false :=
    fun w hw => wordsAux_no_ws _ [] (by simp) w hw
  have h3 : ∀ w ∈ ws, ∀ c ∈ w, sanitizeChar c = c := by
    intro w hw c hc
    rcases wordsAux_subset _ [] w c hw hc with h | h
    · simp at h
    · rw [List.mem_map] at h
      obtain ⟨c0, _, rfl⟩ := h
      exact sanitizeChar_idempotent c0
  have hfix : sanitizeL (joinSpace ws) = joinSpace ws :=
    sanitizeL_joinSpace_fixed ws h1 h2 h3
  have hq : sanitize_query q = ⟨joinSpace ws⟩ := congrArg String.mk hbase
  rw [hq]
  exact congrArg String.mk hfix

/-- Witness for C2 (amended) at the query `hello world`. -/
theorem sanitize_query_idempotent_no_auto_star_witness :
    sanitize_query (sanitize_query "hello world") = sanitize_query "hello world" :=
  sanitize_query_idempotent_no_auto_star "hello world" (by decide) (by decide)

/-! ## Theorems: two-phase search (claims C3, C4) -/

/-- Phase A appends some tail of synthetic-rank filename results. -/
theorem addPhaseA_spec (maxr : Nat) (paths : List String) :
    ∀ seen results, ∃ extra,
      (addPhaseA maxr paths seen results).2 = results ++ extra ∧
      ∀ r ∈ extra, r.rank = -1000 ∧ r.path ∈ paths := by
  induction paths with
  | nil =>
    intro seen results
    exact ⟨[], by simp [addPhaseA], by simp⟩
  | cons p rest ih =>
    intro seen results
    unfold addPhaseA
    by_cases h : maxr ≤ results.length
    · rw [if_pos h]
      exact ⟨[], by simp, by simp⟩
    · rw [if_neg h]
      obtain ⟨extra, he, hp⟩ :=
        ih (p :: seen) (results ++ [{ path := p, rank := -1000 }])
      refine ⟨{ path := p, rank := -1000 } :: extra, ?_, ?_⟩
      · rw [he]; simp
      · intro r hr
        rcases List.mem_cons.mp hr with h1 | h2
        · subst h1
          exact ⟨rfl, List.mem_cons_self _ _⟩
        · obtain ⟨hr1, hr2⟩ := hp r h2
          exact ⟨hr1, List.mem_cons_of_mem p hr2⟩

/-- Phase A never exceeds `max_results`. -/
theorem addPhaseA_len_le (maxr : Nat) (paths : List String) :
    ∀ seen results, results.length ≤ maxr →
      (addPhaseA maxr paths seen results).2.length ≤ maxr := by
  induction paths with
  | nil => intro seen results h; simpa [addPhaseA] using h
  | cons p rest ih =>
    intro seen results h
    unfold addPhaseA
    by_cases hl : maxr ≤ results.length
    · rw [if_pos hl]; exact h
    · rw [if_neg hl]
      refine ih (p :: seen) _ ?_
      simp only [List.length_append, List.length_cons, List.length_nil]
      omega

/-- Phase B appends some subsequence of the store's FTS results. -/
theorem addPhaseB_spec (maxr : Nat) (fts : List SearchResult) :
    ∀ seen results, ∃ extra,
      addPhaseB maxr fts seen results = results ++ extra ∧
      ∀ r ∈ extra, r ∈ fts := by
  induction fts with
  | nil =>
    intro seen results
    exact ⟨[], by simp [addPhaseB], by simp⟩
  | cons r rest ih =>
    intro seen results
    unfold addPhaseB
    by_cases h : maxr ≤ results.length
    · rw [if_pos h]
      exact ⟨[], by simp, by simp⟩
    · rw [if_neg h]
      by_cases hs : seen.contains r.path
      · rw [if_pos hs]
        obtain ⟨extra, he, hp⟩ := ih seen results
        exact ⟨extra, he, fun x hx => List.mem_cons_of_mem r (hp x hx)⟩
      · rw [if_neg hs]
        obtain ⟨extra, he, hp⟩ := ih (r.path :: seen) (results ++ [r])
        refine ⟨r :: extra, by rw [he]; simp, ?_⟩
        intro x hx
        rcases List.mem_cons.mp hx with h1 | h2
        · subst h1; exact List.mem_cons_self _ _
        · exact List.mem_cons_of_mem r (hp x h2)

/-- Phase B never exceeds `max_results`. -/
theorem addPhaseB_len_le (maxr : Nat) (fts : List SearchResult) :
    ∀ seen results, results.length ≤ maxr →
      (addPhaseB maxr fts seen results).length ≤ maxr := by
  induction fts with
  | nil => intro seen results h; simpa [addPhaseB] using h
  | cons r rest ih =>
    intro seen results h
    unfold addPhaseB
    by_cases hl : maxr ≤ results.length
    · rw [if_pos hl]; exact h
    · rw [if_neg hl]
      by_cases hs : seen.contains r.path
      · rw [if_pos hs]; exact ih seen results h
      · rw [if_neg hs]
        refine ih (r.path :: seen) _ ?_
        simp only [List.length_append, List.length_cons, List.length_nil]
        omega

/-- Phase A preserves distinctness of paths and keeps every emitted path in
the seen set, given distinct input paths disjoint from the accumulator. -/
theorem addPhaseA_nodup (maxr : Nat) (paths : List String) :
    ∀ seen results, paths.Nodup →
      (results.map SearchResult.path).Nodup →
      (∀ r ∈ results, r.path ∈ seen) →
      (∀ p ∈ paths, ∀ r ∈ results, r.path ≠ p) →
      ((addPhaseA maxr paths seen results).2.map SearchResult.path).Nodup ∧
      ∀ r ∈ (addPhaseA maxr paths seen results).2,
        r.path ∈ (addPhaseA maxr paths seen results).1 := by
  induction paths with
  | nil =>
    intro seen results _ hnd hseen _
    exact ⟨by simpa [addPhaseA] using hnd, by simpa [addPhaseA] using hseen⟩
  | cons p rest ih =>
    intro seen results hpaths hnd hseen hdisj
    unfold addPhaseA
    by_cases h : maxr ≤ results.length
    · rw [if_pos h]
      exact ⟨hnd, hseen⟩
    · rw [if_neg h]
      have hpnotin : p ∉ results.map SearchResult.path := by
        rw [List.mem_map]
        rintro ⟨r, hr, hrp⟩
        exact hdisj p (List.mem_cons_self _ _) r hr hrp
      refine ih (p :: seen) (results ++ [{ path := p, rank := -1000 }])
        (List.Nodup.of_cons hpaths) ?_ ?_ ?_
      · simp only [List.map_append, List.map_cons, List.map_nil]
        rw [List.nodup_append]
        exact ⟨hnd, by simp, by simpa using hpnotin⟩
      · intro r hr
        rcases List.mem_append.mp hr with h1 | h2
        · exact List.mem_cons_of_mem p (hseen r h1)
        · have : r = { path := p, rank := -1000 } := by simpa using h2
          rw [this]
          exact List.mem_cons_self _ _
      · intro p' hp' r hr
        rcases List.mem_append.mp hr with h1 | h2
        · exact hdisj p' (List.mem_cons_of_mem p hp') r h1
        · have hre : r = { path := p, rank := -1000 } := by simpa using h2
          rw [hre]
          intro hpp
          have hpp' : p = p' := hpp
          have hnotin : p ∉ rest := (List.nodup_cons.mp hpaths).1
          exact hnotin (hpp' ▸ hp')

/-- Phase B preserves distinctness of paths: a path already seen is never
appended again. -/
theorem addPhaseB_nodup (maxr : Nat) (fts : List SearchResult) :
    ∀ seen results, (results.map SearchResult.path).Nodup →
      (∀ r ∈ results, r.path ∈ seen) →
      ((addPhaseB maxr fts seen results).map SearchResult.path).Nodup := by
  induction fts with
  | nil => intro seen results hnd _; simpa [addPhaseB] using hnd
  | cons r rest ih =>
    intro seen results hnd hseen
    unfold addPhaseB
    by_cases h : maxr ≤ results.length
    · rw [if_pos h]; exact hnd
    · rw [if_neg h]
      by_cases hs : seen.contains r.path
      · rw [if_pos hs]; exact ih seen results hnd hseen
      · rw [if_neg hs]
        have hnotseen : r.path ∉ seen := by
          intro hmem
          exact hs (List.elem_eq_true_of_mem hmem)
        refine ih (r.path :: seen) (results ++ [r]) ?_ ?_
        · simp only [List.map_append, List.map_cons, List.map_nil]
          rw [List.nodup_append]
          refine ⟨hnd, by simp, ?_⟩
          intro x hx
          simp only [List.mem_singleton]
          intro hxr
          rw [List.mem_map] at hx
          obtain ⟨r0, hr0, hr0p⟩ := hx
          exact hnotseen (hxr ▸ hr0p ▸ hseen r0 hr0)
        · intro x hx
          rcases List.mem_append.mp hx with h1 | h2
          · exact List.mem_cons_of_mem _ (hseen x h1)
          · have : x = r := by simpa using h2
            rw [this]
            exact List.mem_cons_self _ _

/-- Inserting into a list is a permutation of consing. -/
theorem insertLe_perm {α : Type} (le : α → α → Bool) (x : α) :
    ∀ l : List α, (insertLe le x l).Perm (x :: l) := by
  intro l
  induction l with
  | nil => exact List.Perm.refl _
  | cons y ys ih =>
    unfold insertLe
    by_cases h : le x y
    · rw [if_pos h]
    · rw [if_neg h]
      exact (List.Perm.cons y ih).trans (List.Perm.swap x y ys)

/-- The `ORDER BY` model permutes its input. -/
theorem sortLe_perm {α : Type} (le : α → α → Bool) (l : List α) :
    (sortLe le l).Perm l := by
  induction l with
  | nil => exact List.Perm.refl _
  | cons x xs ih =>
    have h1 : sortLe le (x :: xs) = insertLe le x (sortLe le xs) := rfl
    rw [h1]
    exact (insertLe_perm le x (sortLe le xs)).trans (List.Perm.cons x ih)

/-- With distinct stored paths, `search_filename_contains` returns distinct
paths. -/
theorem search_filename_contains_nodup (files : List FileRecord) (query : String)
    (limit : Nat) (hp : (files.map FileRecord.path).Nodup) :
    (search_filename_contains files query limit).Nodup := by
  unfold search_filename_contains
  by_cases h1 : (trimL query.data).isEmpty
  · rw [if_pos h1]; exact List.nodup_nil
  · rw [if_neg h1]
    by_cases h2 : (trimEndStars (trimL query.data)).isEmpty
    · rw [if_pos h2]; exact List.nodup_nil
    · rw [if_neg h2]
      dsimp only
      set term := trimEndStars (trimL query.data)
      set found := files.filter (fun r => containsCI r.filename.data term) with hfound
      have hfoundsub : (found.map FileRecord.path).Sublist (files.map FileRecord.path) :=
        (List.filter_sublist files).map FileRecord.path
      have hfoundnd : (found.map FileRecord.path).Nodup := hfoundsub.nodup hp
      have hperm : ((sortLe (fnOrderLe term) found).map FileRecord.path).Perm
          (found.map FileRecord.path) := (sortLe_perm (fnOrderLe term) found).map _
      have hsortnd : ((sortLe (fnOrderLe term) found).map FileRecord.path).Nodup :=
        (List.Perm.nodup_iff hperm).mpr hfoundnd
      have htake : ((sortLe (fnOrderLe term) found).take limit).map FileRecord.path =
          ((sortLe (fnOrderLe term) found).map FileRecord.path).take limit :=
        List.map_take _ _ _
      rw [htake]
      exact (List.take_sublist _ _).nodup hsortnd

/-- Claim C3: every phase-A result carries the synthetic rank `-1000.0`,
appears in the output before every phase-B result, and — given the store's
BM25 ranks, which are negative or near zero, hence above `-1000` (modelled
from the spec, the BM25 scorer being the embedded store's) — has a strictly
lower rank than every phase-B result. -/
theorem searcher_search_phase_order (files : List FileRecord)
    (store_fts : String → Nat → List SearchResult) (cfg : SearchConfig) (query : String)
    (hstore : ∀ q n, ∀ r ∈ store_fts q n, (-1000 : Rat) < r.rank) :
    ∃ a b, searcher_search files store_fts cfg query = a ++ b ∧
      (∀ r ∈ a, r.rank = -1000 ∧
        r.path ∈ search_filename_contains files
          ((firstWord (sanitize_query query)).getD (sanitize_query query)) cfg.max_results) ∧
      (∀ r ∈ b, (-1000 : Rat) < r.rank) ∧
      (∀ ra ∈ a, ∀ rb ∈ b, ra.rank < rb.rank) := by
  unfold searcher_search
  dsimp only
  by_cases hempty : (trimL (sanitize_query query).data).isEmpty
  · rw [if_pos hempty]
    exact ⟨[], [], rfl, by simp, by simp, by simp⟩
  · rw [if_neg hempty]
    set fm := search_filename_contains files
      ((firstWord (sanitize_query query)).getD (sanitize_query query)) cfg.max_results with hfm
    obtain ⟨a, ha, hpa⟩ := addPhaseA_spec cfg.max_results fm [] []
    have ha' : (addPhaseA cfg.max_results fm [] []).2 = a := by simpa using ha
    by_cases hlen : (addPhaseA cfg.max_results fm [] []).2.length < cfg.max_results
    · rw [if_pos hlen]
      obtain ⟨b, hb, hpb⟩ := addPhaseB_spec cfg.max_results
        (store_fts (sanitize_query query)
          (cfg.max_results - (addPhaseA cfg.max_results fm [] []).2.length +
            (addPhaseA cfg.max_results fm [] []).1.length))
        (addPhaseA cfg.max_results fm [] []).1 (addPhaseA cfg.max_results fm [] []).2
      refine ⟨a, b, ?_, fun r hr => hpa r hr, ?_, ?_⟩
      · rw [hb, ha']
      · intro r hr
        exact hstore _ _ r (hpb r hr)
      · intro ra hra rb hrb
        have h1 : ra.rank = -1000 := (hpa ra hra).1
        have h2 : (-1000 : Rat) < rb.rank := hstore _ _ rb (hpb rb hrb)
        rw [h1]
        exact h2
    · rw [if_neg hlen]
      exact ⟨a, [], by rw [List.append_nil, ha'], fun r hr => hpa r hr, by simp, by simp⟩

/-- Witness for C3: one filename match at rank `-1000` ahead of one BM25
result at rank `-1/2`. -/
theorem searcher_search_phase_order_witness :
    ∃ a b, searcher_search
        [⟨1, "docs/learn/01-introduction.md", "01-introduction.md", "h1", 0, 1, 0, "chapter"⟩,
         ⟨2, "other.md", "other.md", "h2", 0, 1, 0, "intro content"⟩]
        (fun _ _ => [⟨"other.md", -1/2⟩]) ⟨false, 15⟩ "intro" = a ++ b ∧
      (∀ r ∈ a, r.rank = -1000 ∧
        r.path ∈ search_filename_contains
          [⟨1, "docs/learn/01-introduction.md", "01-introduction.md", "h1", 0, 1, 0, "chapter"⟩,
           ⟨2, "other.md", "other.md", "h2", 0, 1, 0, "intro content"⟩]
          ((firstWord (sanitize_query "intro")).getD (sanitize_query "intro")) 15) ∧
      (∀ r ∈ b, (-1000 : Rat) < r.rank) ∧
      (∀ ra ∈ a, ∀ rb ∈ b, ra.rank < rb.rank) :=
  searcher_search_phase_order _ _ _ _ (by
    intro q n r hr
    simp only [List.mem_singleton] at hr
    subst hr
    norm_num)

/-- Claim C4: for every query and store reply, with the stored paths
distinct (the `path` column is UNIQUE), the searcher returns pairwise
distinct paths and at most `max_results` results. -/
theorem searcher_search_distinct_bounded (files : List FileRecord)
    (store_fts : String → Nat → List SearchResult) (cfg : SearchConfig) (query : String)
    (hpaths : (files.map FileRecord.path).Nodup) :
    ((searcher_search files store_fts cfg query).map SearchResult.path).Nodup ∧
    (searcher_search files store_fts cfg query).length ≤ cfg.max_results := by
  unfold searcher_search
  dsimp only
  by_cases hempty : (trimL (sanitize_query query).data).isEmpty
  · rw [if_pos hempty]
    simp
  · rw [if_neg hempty]
    set fm := search_filename_contains files
      ((firstWord (sanitize_query query)).getD (sanitize_query query)) cfg.max_results with hfm
    have hfmnd : fm.Nodup := search_filename_contains_nodup files _ _ hpaths
    obtain ⟨hand, haseen⟩ := addPhaseA_nodup cfg.max_results fm [] [] hfmnd
      (by simp) (by simp) (by simp)
    have halen : (addPhaseA cfg.max_results fm [] []).2.length ≤ cfg.max_results :=
      addPhaseA_len_le cfg.max_results fm [] [] (by simp)
    by_cases hlen : (addPhaseA cfg.max_results fm [] []).2.length < cfg.max_results
    · rw [if_pos hlen]
      constructor
      · exact addPhaseB_nodup cfg.max_results _ _ _ hand haseen
      · exact addPhaseB_len_le cfg.max_results _ _ _ halen
    · rw [if_neg hlen]
      exact ⟨hand, halen⟩

/-- Witness for C4 on a two-record table. -/
theorem searcher_search_distinct_bounded_witness :
    ((searcher_search
        [⟨1, "test.rs", "test.rs", "h1", 0, 1, 0, "test content"⟩,
         ⟨2, "other.rs", "other.rs", "h2", 0, 1, 0, "test content"⟩]
        (fun _ _ => [⟨"test.rs", -1/2⟩, ⟨"other.rs", -1/3⟩]) ⟨false, 10⟩ "test").map
      SearchResult.path).Nodup ∧
    (searcher_search
        [⟨1, "test.rs", "test.rs", "h1", 0, 1, 0, "test content"⟩,
         ⟨2, "other.rs", "other.rs", "h2", 0, 1, 0, "test content"⟩]
        (fun _ _ => [⟨"test.rs", -1/2⟩, ⟨"other.rs", -1/3⟩]) ⟨false, 10⟩ "test").length ≤ 10 :=
  searcher_search_distinct_bounded _ _ _ _ (by decide)

/-! ## Theorems: project-root detection (claim C6) -/

/-- Every index produced by `revRange m` is below `m`. -/
theorem mem_revRange (m : Nat) : ∀ i ∈ revRange m, i < m := by
  induction m with
  | zero => intro i hi; simp [revRange] at hi
  | succ n ih =>
    intro i hi
    unfold revRange at hi
    rcases List.mem_cons.mp hi with h | h
    · omega
    · exact Nat.lt_succ_of_lt (ih i h)

/-- `revRange m` splits at any lower bound `k` into the indices of
`[k, m)` (descending) followed by `revRange k`. -/
theorem revRange_split (m k : Nat) (h : k ≤ m) :
    ∃ l, revRange m = l ++ revRange k ∧ ∀ i ∈ l, k ≤ i ∧ i < m := by
  induction m with
  | zero =>
    have : k = 0 := Nat.le_zero.mp h
    subst this
    exact ⟨[], rfl, by simp⟩
  | succ n ih =>
    by_cases hk : k = n + 1
    · subst hk
      exact ⟨[], rfl, by simp⟩
    · have hkn : k ≤ n := by omega
      obtain ⟨l, hl, hb⟩ := ih hkn
      refine ⟨n :: l, ?_, ?_⟩
      · have hstep : revRange (n + 1) = n :: revRange n := rfl
        rw [hstep, hl]
        rfl
      · intro i hi
        rcases List.mem_cons.mp hi with h1 | h2
        · omega
        · have := hb i h2
          omega

/-- The loop returns the first ancestor carrying a valid database, whatever
git state has been accumulated. -/
theorem rootLoop_finds_db (fs : Fs) (sd : List String) (A : List String)
    (hA : is_valid_ffts_database fs A = true) (l₂ : List (List String)) :
    ∀ l₁, (∀ x ∈ l₁, is_valid_ffts_database fs x = false) →
      ∀ g, rootLoop fs sd (l₁ ++ A :: l₂) g =
        { path := A, method := DetectionMethod.existingDatabase } := by
  intro l₁
  induction l₁ with
  | nil =>
    intro _ g
    show rootLoop fs sd (A :: l₂) g = _
    unfold rootLoop
    rw [if_pos hA]
  | cons x rest ih =>
    intro hx g
    show rootLoop fs sd (x :: (rest ++ A :: l₂)) g = _
    unfold rootLoop
    rw [if_neg (by simp [hx x (List.mem_cons_self _ _)])]
    exact ih (fun y hy => hx y (List.mem_cons_of_mem x hy)) _

/-- Once a git root is recorded and no valid database follows, the loop
returns that git root. -/
theorem rootLoop_git_fixed (fs : Fs) (sd : List String) (g : List String) :
    ∀ l, (∀ x ∈ l, is_valid_ffts_database fs x = false) →
      rootLoop fs sd l (some g) =
        { path := g, method := DetectionMethod.gitRepository } := by
  intro l
  induction l with
  | nil => intro _; rfl
  | cons x rest ih =>
    intro hx
    unfold rootLoop
    rw [if_neg (by simp [hx x (List.mem_cons_self _ _)])]
    simpa using ih (fun y hy => hx y (List.mem_cons_of_mem x hy))

/-- Unfolding equation of the root loop on a cons cell. -/
theorem rootLoop_cons (fs : Fs) (sd anc : List String) (rest : List (List String))
    (g : Option (List String)) :
    rootLoop fs sd (anc :: rest) g =
      if is_valid_ffts_database fs anc then
        { path := anc, method := DetectionMethod.existingDatabase }
      else rootLoop fs sd rest
        (if g.isNone && fs.gitDirExists anc then some anc else g) := rfl

/-- Ancestors with neither a valid database nor a git marker are skipped
without changing the loop state. -/
theorem rootLoop_skip_nogit (fs : Fs) (sd : List String) :
    ∀ l₁ rest, (∀ x ∈ l₁, is_valid_ffts_database fs x = false) →
      (∀ x ∈ l₁, fs.gitDirExists x = false) →
      rootLoop fs sd (l₁ ++ rest) none = rootLoop fs sd rest none := by
  intro l₁
  induction l₁ with
  | nil => intro rest _ _; rfl
  | cons x l ih =>
    intro rest hdb hgit
    show rootLoop fs sd (x :: (l ++ rest)) none = _
    rw [rootLoop_cons, if_neg (by simp [hdb x (List.mem_cons_self _ _)])]
    rw [show (if (none : Option (List String)).isNone && fs.gitDirExists x
        then some x else none) = none by simp [hgit x (List.mem_cons_self _ _)]]
    exact ih rest (fun y hy => hdb y (List.mem_cons_of_mem x hy))
      (fun y hy => hgit y (List.mem_cons_of_mem x hy))

/-- Claim C6: with `A = startDir.take a` the only database ancestor and
`V = startDir.take v` the deepest git ancestor, a descendant of `A`
(`a < v`): the root is `(A, existing_db)` when `A`'s database exists, opens
read-only and carries the expected application id, and `(V, vcs)` when any
of those checks fails — a malformed, empty or foreign database never
determines the root. -/
theorem find_project_root_priority (fs : Fs) (startDir : List String) (a v : Nat)
    (hav : a < v) (hvn : v ≤ startDir.length)
    (hdeep : ∀ i, i ≤ startDir.length → i ≠ a →
      is_valid_ffts_database fs (startDir.take i) = false)
    (hgitv : fs.gitDirExists (startDir.take v) = true)
    (hgitdeep : ∀ i, i ≤ startDir.length → v < i →
      fs.gitDirExists (startDir.take i) = false) :
    (is_valid_ffts_database fs (startDir.take a) = true →
      find_project_root fs startDir =
        { path := startDir.take a, method := DetectionMethod.existingDatabase }) ∧
    (is_valid_ffts_database fs (startDir.take a) = false →
      find_project_root fs startDir =
        { path := startDir.take v, method := DetectionMethod.gitRepository }) := by
  have han : a ≤ startDir.length := by omega
  constructor
  · intro hA
    obtain ⟨l, hl, hb⟩ := revRange_split (startDir.length + 1) (a + 1) (by omega)
    have hanc : ancestorsOf startDir =
        (l.map (fun i => startDir.take i)) ++
          startDir.take a :: (revRange a).map (fun i => startDir.take i) := by
      unfold ancestorsOf
      rw [hl]
      simp [revRange]
    unfold find_project_root
    rw [hanc]
    refine rootLoop_finds_db fs startDir (startDir.take a) hA _ _ ?_ none
    intro x hx
    rw [List.mem_map] at hx
    obtain ⟨i, hi, rfl⟩ := hx
    obtain ⟨hi1, hi2⟩ := hb i hi
    exact hdeep i (by omega) (by omega)
  · intro hA
    have hall : ∀ i, i ≤ startDir.length →
        is_valid_ffts_database fs (startDir.take i) = false := by
      intro i hi
      by_cases hia : i = a
      · subst hia; exact hA
      · exact hdeep i hi hia
    obtain ⟨l, hl, hb⟩ := revRange_split (startDir.length + 1) (v + 1) (by omega)
    have hanc : ancestorsOf startDir =
        (l.map (fun i => startDir.take i)) ++
          startDir.take v :: (revRange v).map (fun i => startDir.take i) := by
      unfold ancestorsOf
      rw [hl]
      simp [revRange]
    unfold find_project_root
    rw [hanc]
    rw [rootLoop_skip_nogit fs startDir _ _ ?hdb ?hgit]
    case hdb =>
      intro x hx
      rw [List.mem_map] at hx
      obtain ⟨i, hi, rfl⟩ := hx
      obtain ⟨hi1, hi2⟩ := hb i hi
      exact hall i (by omega)
    case hgit =>
      intro x hx
      rw [List.mem_map] at hx
      obtain ⟨i, hi, rfl⟩ := hx
      obtain ⟨hi1, hi2⟩ := hb i hi
      exact hgitdeep i (by omega) (by omega)
    rw [rootLoop_cons, if_neg (by simp [hall v hvn])]
    rw [show (if (none : Option (List String)).isNone &&
        fs.gitDirExists (startDir.take v) then some (startDir.take v) else none) =
        some (startDir.take v) by simp [hgitv]]
    refine rootLoop_git_fixed fs startDir _ _ ?_
    intro x hx
    rw [List.mem_map] at hx
    obtain ⟨i, hi, rfl⟩ := hx
    have := mem_revRange v i hi
    exact hall i (by omega)

/-- Witness for C6: database at `r`, git at `r/p`, searching from `r/p/s`
finds `(r, existing_db)`. -/
theorem find_project_root_priority_witness :
    find_project_root
      { dbFileExists := fun d => d == ["r"], dbOpensReadonly := fun d => d == ["r"],
        dbApplicationId := fun d => if d == ["r"] then some EXPECTED_APPLICATION_ID else none,
        gitDirExists := fun d => d == ["r", "p"] } ["r", "p", "s"] =
      { path := ["r"], method := DetectionMethod.existingDatabase } :=
  (find_project_root_priority
    { dbFileExists := fun d => d == ["r"], dbOpensReadonly := fun d => d == ["r"],
      dbApplicationId := fun d => if d == ["r"] then some EXPECTED_APPLICATION_ID else none,
      gitDirExists := fun d => d == ["r", "p"] } ["r", "p", "s"] 1 2
    (by norm_num) (by norm_num) (by decide) (by decide) (by decide)).1 (by decide)

/-! ## Theorems: indexer transaction batching (claim C8) -/

/-- Stepping a counter sitting at the top of its residue class wraps to 0. -/
theorem mod_succ_eq_zero {k m : Nat} (hm : 0 < m) (h : k % m = m - 1) :
    (k + 1) % m = 0 := by
  have hd := Nat.div_add_mod k m
  have hk : k + 1 = m * (k / m + 1) := by
    rw [Nat.mul_add, Nat.mul_one]
    omega
  rw [hk]
  exact Nat.mul_mod_right m _

/-- Stepping a counter strictly inside its residue class increments the
residue. -/
theorem mod_succ_of_lt {k m : Nat} (h : k % m < m - 1) :
    (k + 1) % m = k % m + 1 := by
  have hd := Nat.div_add_mod k m
  have hk : k + 1 = m * (k / m) + (k % m + 1) := by omega
  rw [hk, Nat.mul_add_mod]
  exact Nat.mod_eq_of_lt (by omega)

/-- Below the threshold and outside a transaction, a step only counts. -/
theorem txStep_no_txn (bs e : Nat) (s : TxState) (h1 : s.batchCount + 1 ≠ 50)
    (h2 : s.started = false) :
    txStep bs e s = { s with batchCount := s.batchCount + 1 } := by
  have hc1 : (s.batchCount + 1 == 50) = false := by simpa using h1
  simp only [txStep]
  rw [hc1, h2]
  simp

/-- Reaching the threshold with no transaction active issues
`BEGIN IMMEDIATE`. -/
theorem txStep_begin (bs e : Nat) (s : TxState) (h1 : s.batchCount + 1 = 50)
    (h2 : s.started = false) (hbs : 50 < bs) :
    txStep bs e s = { batchCount := 50, started := true,
                      trace := s.trace ++ [(e, TxOp.beginImmediate)] } := by
  have hc1 : (s.batchCount + 1 == 50) = true := by simpa using h1
  have hd : decide (bs ≤ 50) = false := decide_eq_false (by omega)
  simp only [txStep]
  rw [hc1, h2, h1, hd]
  simp

/-- Inside a transaction below `batch_size`, a step only counts. -/
theorem txStep_in_txn (bs e : Nat) (s : TxState) (h2 : s.started = true)
    (h3 : s.batchCount + 1 < bs) :
    txStep bs e s = { s with batchCount := s.batchCount + 1 } := by
  have hd : decide (bs ≤ s.batchCount + 1) = false := decide_eq_false (by omega)
  simp only [txStep]
  rw [h2, hd]
  simp

/-- Inside a transaction at `batch_size`, a step commits and re-begins,
resetting the count to the threshold. -/
theorem txStep_commit (bs e : Nat) (s : TxState) (h2 : s.started = true)
    (h3 : bs ≤ s.batchCount + 1) :
    txStep bs e s = { batchCount := 50, started := true,
                      trace := s.trace ++ [(e, TxOp.commit), (e, TxOp.beginImmediate)] } := by
  have hd : decide (bs ≤ s.batchCount + 1) = true := decide_eq_true h3
  simp only [txStep]
  rw [h2, hd]
  simp

/-- A non-empty head survives an append. -/
theorem head?_append_left {α : Type} {l : List α} {x : α} (h : l.head? = some x)
    (l' : List α) : (l ++ l').head? = some x := by
  cases l with
  | nil => simp at h
  | cons a t => simpa using h

/-- Invariant of the batching loop for `batch_size > 50`: when the
transaction starts, what the counter is, what the head of the trace is, and
exactly which entries issue `COMMIT` and `BEGIN IMMEDIATE`. -/
theorem txRun_invariant (bs : Nat) (hbs : 50 < bs) : ∀ n,
    (txRun bs n).started = decide (50 ≤ n) ∧
    (txRun bs n).batchCount = (if n < 50 then n else 50 + (n - 50) % (bs - 50)) ∧
    (txRun bs n).trace.head? =
      (if 50 ≤ n then some (50, TxOp.beginImmediate) else none) ∧
    (∀ e, ((e, TxOp.commit) ∈ (txRun bs n).trace ↔
      50 < e ∧ e ≤ n ∧ (e - 50) % (bs - 50) = 0)) ∧
    (∀ e, ((e, TxOp.beginImmediate) ∈ (txRun bs n).trace ↔
      (e = 50 ∧ 50 ≤ n) ∨ (50 < e ∧ e ≤ n ∧ (e - 50) % (bs - 50) = 0))) := by
  intro n
  induction n with
  | zero =>
    refine ⟨rfl, rfl, rfl, ?_, ?_⟩
    · intro e
      constructor
      · intro h
        simp [txRun] at h
      · rintro ⟨h1, h2, _⟩
        omega
    · intro e
      constructor
      · intro h
        simp [txRun] at h
      · rintro (⟨h1, h2⟩ | ⟨h1, h2, _⟩) <;> omega
  | succ n ih =>
    obtain ⟨ihs, ihb, ihh, ihc, ihB⟩ := ih
    have hm : 0 < bs - 50 := by omega
    have hstep : txRun bs (n + 1) = txStep bs (n + 1) (txRun bs n) := rfl
    by_cases h1 : n + 1 < 50
    · -- (i) still below the threshold
      have hbc : (txRun bs n).batchCount = n := by
        rw [ihb, if_pos (by omega)]
      have hst : (txRun bs n).started = false := by
        rw [ihs]; simp; omega
      rw [hstep, txStep_no_txn bs (n + 1) _ (by omega) hst]
      refine ⟨?_, ?_, ?_, ?_, ?_⟩
      · show (txRun bs n).started = _
        rw [hst]
        exact (decide_eq_false (by omega : ¬ 50 ≤ n + 1)).symm
      · show (txRun bs n).batchCount + 1 = _
        rw [hbc, if_pos h1]
      · show (txRun bs n).trace.head? = _
        rw [ihh, if_neg (by omega), if_neg (by omega)]
      · intro e
        show (e, TxOp.commit) ∈ (txRun bs n).trace ↔ _
        rw [ihc e]
        constructor
        · rintro ⟨a, b, c⟩; exact ⟨a, by omega, c⟩
        · rintro ⟨a, b, c⟩; exact ⟨a, by omega, c⟩
      · intro e
        show (e, TxOp.beginImmediate) ∈ (txRun bs n).trace ↔ _
        rw [ihB e]
        constructor
        · rintro (⟨a, b⟩ | ⟨a, b, c⟩)
          · omega
          · exact Or.inr ⟨a, by omega, c⟩
        · rintro (⟨a, b⟩ | ⟨a, b, c⟩)
          · omega
          · exact Or.inr ⟨a, by omega, c⟩
    · by_cases h2 : n + 1 = 50
      · -- (ii) the threshold entry: BEGIN IMMEDIATE
        have hbc : (txRun bs n).batchCount = n := by
          rw [ihb, if_pos (by omega)]
        have hst : (txRun bs n).started = false := by
          rw [ihs]; simp; omega
        have htr : (txRun bs n).trace = [] := by
          have := ihh
          rw [if_neg (by omega)] at this
          exact List.head?_eq_none_iff.mp this
        rw [hstep, txStep_begin bs (n + 1) _ (by omega) hst hbs]
        rw [htr]
        refine ⟨(decide_eq_true (by omega : 50 ≤ n + 1)).symm, ?_, by simp [h2], ?_, ?_⟩
        · show (50 : Nat) = _
          rw [if_neg (by omega)]
          have : n + 1 - 50 = 0 := by omega
          rw [this]
          simp
        · intro e
          constructor
          · intro h
            simp at h
          · rintro ⟨a, b, c⟩
            omega
        · intro e
          constructor
          · intro h
            simp at h
            exact Or.inl ⟨by omega, by omega⟩
          · rintro (⟨a, b⟩ | ⟨a, b, c⟩)
            · simp [a, h2]
            · omega
      · -- (iii) inside the transaction
        have h50n : 50 ≤ n := by omega
        have hst : (txRun bs n).started = true := by
          rw [ihs]; simp; omega
        have hbc : (txRun bs n).batchCount = 50 + (n - 50) % (bs - 50) := by
          rw [ihb, if_neg (by omega)]
        have hkm : (n - 50) % (bs - 50) < bs - 50 := Nat.mod_lt _ hm
        by_cases hc : (n - 50) % (bs - 50) = bs - 50 - 1
        · -- commit entry
          have hmod : (n + 1 - 50) % (bs - 50) = 0 := by
            have := mod_succ_eq_zero hm hc
            have he : n + 1 - 50 = (n - 50) + 1 := by omega
            rw [he]
            exact this
          rw [hstep, txStep_commit bs (n + 1) _ hst (by rw [hbc]; omega)]
          refine ⟨(decide_eq_true (by omega : 50 ≤ n + 1)).symm, ?_, ?_, ?_, ?_⟩
          · show (50 : Nat) = _
            rw [if_neg (by omega), hmod]
          · show ((txRun bs n).trace ++ _).head? = _
            rw [head?_append_left (by rw [ihh, if_pos h50n]) _, if_pos (by omega)]
          · intro e
            constructor
            · intro h
              rcases List.mem_append.mp h with ha | hb
              · obtain ⟨a, b, c⟩ := (ihc e).mp ha
                exact ⟨a, by omega, c⟩
              · simp at hb
                subst hb
                exact ⟨by omega, by omega, hmod⟩
            · rintro ⟨a, b, c⟩
              by_cases hen : e ≤ n
              · exact List.mem_append.mpr (Or.inl ((ihc e).mpr ⟨a, hen, c⟩))
              · have : e = n + 1 := by omega
                subst this
                exact List.mem_append.mpr (Or.inr (by simp))
          · intro e
            constructor
            · intro h
              rcases List.mem_append.mp h with ha | hb
              · rcases (ihB e).mp ha with ⟨a, b⟩ | ⟨a, b, c⟩
                · exact Or.inl ⟨a, by omega⟩
                · exact Or.inr ⟨a, by omega, c⟩
              · simp at hb
                subst hb
                exact Or.inr ⟨by omega, by omega, hmod⟩
            · rintro (⟨a, b⟩ | ⟨a, b, c⟩)
              · exact List.mem_append.mpr (Or.inl ((ihB e).mpr (Or.inl ⟨a, h50n⟩)))
              · by_cases hen : e ≤ n
                · exact List.mem_append.mpr (Or.inl ((ihB e).mpr (Or.inr ⟨a, hen, c⟩)))
                · have : e = n + 1 := by omega
                  subst this
                  exact List.mem_append.mpr (Or.inr (by simp))
        · -- plain counted entry inside the transaction
          have hmod : (n + 1 - 50) % (bs - 50) = (n - 50) % (bs - 50) + 1 := by
            have := mod_succ_of_lt (show (n - 50) % (bs - 50) < bs - 50 - 1 by omega)
            have he : n + 1 - 50 = (n - 50) + 1 := by omega
            rw [he]
            exact this
          rw [hstep, txStep_in_txn bs (n + 1) _ hst (by rw [hbc]; omega)]
          refine ⟨?_, ?_, ?_, ?_, ?_⟩
          · show (txRun bs n).started = _
            rw [hst]
            exact (decide_eq_true (by omega : 50 ≤ n + 1)).symm
          · show (txRun bs n).batchCount + 1 = _
            rw [hbc, if_neg (by omega), hmod]
            omega
          · show (txRun bs n).trace.head? = _
            rw [ihh, if_pos h50n, if_pos (by omega)]
          · intro e
            show (e, TxOp.commit) ∈ (txRun bs n).trace ↔ _
            rw [ihc e]
            constructor
            · rintro ⟨a, b, c⟩
              exact ⟨a, by omega, c⟩
            · rintro ⟨a, b, c⟩
              refine ⟨a, ?_, c⟩
              by_cases hen : e ≤ n
              · exact hen
              · have : e = n + 1 := by omega
                subst this
                rw [hmod] at c
                omega
          · intro e
            show (e, TxOp.beginImmediate) ∈ (txRun bs n).trace ↔ _
            rw [ihB e]
            constructor
            · rintro (⟨a, b⟩ | ⟨a, b, c⟩)
              · exact Or.inl ⟨a, by omega⟩
              · exact Or.inr ⟨a, by omega, c⟩
            · rintro (⟨a, b⟩ | ⟨a, b, c⟩)
              · exact Or.inl ⟨a, h50n⟩
              · refine Or.inr ⟨a, ?_, c⟩
                by_cases hen : e ≤ n
                · exact hen
                · have : e = n + 1 := by omega
                  subst this
                  rw [hmod] at c
                  omega

set_option maxRecDepth 4096 in
/-- Claim C8 counterexample: with `batch_size = 60` and 70 commit-requiring
entries, the transaction begun at entry 50 is committed at entry 60 — only
10 entries (`batch_size − 50`) after the `BEGIN`, not `batch_size` — and
again at entry 70. -/
theorem index_directory_batching_counterexample :
    (txRun 60 70).trace =
      [(50, TxOp.beginImmediate), (60, TxOp.commit), (60, TxOp.beginImmediate),
       (70, TxOp.commit), (70, TxOp.beginImmediate)] ∧
    txFinalCommit 60 70 = true := by
  constructor
  · rfl
  · rfl

/-- Claim C8 (amended): while fewer than 50 commit-requiring entries have
been seen no transaction statement is issued; at entry 50 `BEGIN IMMEDIATE`
is issued (first statement of the trace) and the final `COMMIT` becomes
due; once inside the transaction, `COMMIT` followed by re-`BEGIN` is issued
exactly at the entries `50 + k·(batch_size − 50)` for `k ≥ 1` — the count
resets to the threshold 50, so commits recur every `batch_size − 50`
entries, not every `batch_size`. -/
theorem index_directory_batching (bs n : Nat) (hbs : 50 < bs) :
    (n < 50 → (txRun bs n).trace = [] ∧ txFinalCommit bs n = false) ∧
    (50 ≤ n → (txRun bs n).trace.head? = some (50, TxOp.beginImmediate) ∧
      txFinalCommit bs n = true) ∧
    (∀ e, ((e, TxOp.commit) ∈ (txRun bs n).trace ↔
      50 < e ∧ e ≤ n ∧ (e - 50) % (bs - 50) = 0)) ∧
    (∀ e, ((e, TxOp.beginImmediate) ∈ (txRun bs n).trace ↔
      (e = 50 ∧ 50 ≤ n) ∨ (50 < e ∧ e ≤ n ∧ (e - 50) % (bs - 50) = 0))) := by
  obtain ⟨hs, hb, hh, hc, hB⟩ := txRun_invariant bs hbs n
  refine ⟨?_, ?_, hc, hB⟩
  · intro h
    constructor
    · rw [List.eq_nil_iff_forall_not_mem]
      rintro ⟨e, op⟩ hx
      cases op with
      | beginImmediate =>
        rcases (hB e).mp hx with ⟨_, h2⟩ | ⟨_, h2, _⟩ <;> omega
      | commit =>
        obtain ⟨_, h2, _⟩ := (hc e).mp hx
        omega
    · unfold txFinalCommit
      rw [hs]
      exact decide_eq_false (by omega)
  · intro h
    refine ⟨?_, ?_⟩
    · rw [hh, if_pos h]
    · unfold txFinalCommit
      rw [hs]
      exact decide_eq_true h

/-- Witness for C8 (amended) at `batch_size = 500` after 60 entries:
`BEGIN IMMEDIATE` was issued at entry 50. -/
theorem index_directory_batching_witness :
    (50 : Nat) < 500 ∧ (50, TxOp.beginImmediate) ∈ (txRun 500 60).trace :=
  ⟨by norm_num,
   ((index_directory_batching 500 60 (by norm_num)).2.2.2 50).mpr
     (Or.inl ⟨rfl, by norm_num⟩)⟩
